import Mathlib

/-!
Verification development for the go-lzss package (LZSS decoder).

The definitions below are a shallow embedding of the Go sources:

* `lzss.go` (the buffer-to-buffer decoder): `Order`, the format constants,
  `DefaultFlagFunc`, `DefaultReferenceFunc`, `Decoder.Decode`,
  `NewCustomDecoder`, `NewDecoder`.
* `reader.go` (the streaming decoder): the `Reader` namespace.

Go bytes are modelled as `Nat` (values < 256 in any real stream), Go `int`
as `Int` where negative values are possible (reference-function results,
positions) and as `Nat` where the source only ever holds non-negative
counts (read indices).  Slices are `List Nat`; `in[a:b]` is
`(l.drop a).take (b - a)`.  Errors are the `Err` inductive; a function
returning `(T, error)` becomes `T × Option Err`.
-/

/-- `type Order int` with `LSB Order = iota; MSB`. -/
abbrev Order := Int

def LSB : Order := 0

def MSB : Order := 1

/-- The error values declared in lzss.go (plus `io.ErrUnexpectedEOF`,
which `Decode` returns on truncated input). -/
inductive Err where
  | closed
  | chunkLength
  | offset
  | order
  | threshold
  | nilParameter
  | unexpectedEOF
deriving DecidableEq, Repr

/-- `NFlags = 8`: number of sequential flag bits. -/
abbrev NFlags : Nat := 8

/-- `NOffsetBits = 12`: number of bits used for relative offset. -/
abbrev NOffsetBits : Nat := 12

/-- `NLengthBits = 4`: number of bits for the referred chunk length. -/
abbrev NLengthBits : Nat := 4

/-- `OffsetMask = 1<<NLengthBits - 1`. -/
abbrev OffsetMask : Nat := 1 <<< NLengthBits - 1

/-- `NReferenceBytes = (NOffsetBits + NFlags) / 8`. -/
abbrev NReferenceBytes : Nat := (NOffsetBits + NFlags) / 8

/-- `ThresholdMin = NReferenceBytes + NFlags/8`. -/
abbrev ThresholdMin : Nat := NReferenceBytes + NFlags / 8

/-- `DefaultThreshold = ThresholdMin`. -/
abbrev DefaultThreshold : Nat := ThresholdMin

/-- `type FlagFuncType func(byte, uint) bool`. -/
abbrev FlagFuncType := Nat → Nat → Bool

/-- `type ReferenceFuncType func([]byte, Order) (int, int)`,
returning the (length, offset) pair. -/
abbrev ReferenceFuncType := List Nat → Order → Int × Int

/-- The `Decoder` struct of lzss.go. -/
structure Decoder where
  order : Order
  threshold : Int
  flagFunc : FlagFuncType
  referenceFunc : ReferenceFuncType

/-- `DefaultFlagFunc(flags byte, pos uint) bool = (flags<<pos)&0x80 == 0`.
The Go shift is a byte shift, hence the `% 256`. -/
def DefaultFlagFunc : FlagFuncType := fun flags pos =>
  ((flags <<< pos) % 256) &&& 0x80 == 0

/-- `DefaultReferenceFunc(refBytes []byte, order Order) (length, offset int)`.
`Decode` always calls it with exactly `NReferenceBytes = 2` bytes, so the
`getD` defaults are never exercised from `Decode`. -/
def DefaultReferenceFunc : ReferenceFuncType := fun refBytes order =>
  let lo : Nat := if order = LSB then refBytes.getD 0 0 else refBytes.getD 1 0
  let hi : Nat := if order = LSB then refBytes.getD 1 0 else refBytes.getD 0 0
  (Int.ofNat (hi >>> NLengthBits), Int.ofNat (((hi &&& OffsetMask) <<< 8) ||| lo))

/-- `NewCustomDecoder(order, flagFunc, referenceFunc, threshold)`.  The Go
function takes possibly-nil function values, modelled as `Option`s; the
checks appear in the source order: order, nil parameters, threshold. -/
def NewCustomDecoder (order : Order) (flagFunc : Option FlagFuncType)
    (referenceFunc : Option ReferenceFuncType) (threshold : Int) :
    Except Err Decoder :=
  if order ≠ LSB ∧ order ≠ MSB then
    Except.error Err.order
  else
    match flagFunc, referenceFunc with
    | some ff, some rf =>
      if threshold < (ThresholdMin : Int) then
        Except.error Err.threshold
      else
        Except.ok { order := order, threshold := threshold,
                    flagFunc := ff, referenceFunc := rf }
    | _, _ => Except.error Err.nilParameter

/-- `NewDecoder(order)`. -/
def NewDecoder (order : Order) : Except Err Decoder :=
  NewCustomDecoder order (some DefaultFlagFunc) (some DefaultReferenceFunc)
    (DefaultThreshold : Int)

/-- The local state of the inner flag loop of `Decoder.Decode`:
the output accumulated so far (`out`), the read index `r`, the write
counter `w` and the pending error of an early `return`. -/
structure SubState where
  out : List Nat
  r : Nat
  w : Int
  err : Option Err
deriving DecidableEq, Repr

/-- One iteration of the flag loop of `Decoder.Decode` at flag index `i`:

```
if d.flagFunc(flags, i) {
    if r >= l { return out, io.ErrUnexpectedEOF }
    out = append(out, in[r]); r++; w++
} else {
    if r+NReferenceBytes > l { return out, io.ErrUnexpectedEOF }
    refBytes := in[r : r+NReferenceBytes]; r += NReferenceBytes
    n, offset := d.referenceFunc(refBytes, d.order)
    if n < 0 { return out, ErrChunkLength }
    n += d.threshold
    pos := (w - 1) - offset
    if offset < 0 || pos < 0 { return out, ErrOffset }
    if pos+n > len(out) { return append(out, out[pos:]...), ErrChunkLength }
    out = append(out, out[pos:pos+n]...); w += n
}
```
-/
def subRoundStep (d : Decoder) (inp : List Nat) (flags : Nat) (i : Nat)
    (s : SubState) : SubState :=
  if d.flagFunc flags i then
    if h : s.r < inp.length then
      { out := s.out ++ [inp[s.r]], r := s.r + 1, w := s.w + 1, err := none }
    else
      { s with err := some Err.unexpectedEOF }
  else
    if inp.length < s.r + NReferenceBytes then
      { s with err := some Err.unexpectedEOF }
    else
      let refBytes := (inp.drop s.r).take NReferenceBytes
      let nOff := d.referenceFunc refBytes d.order
      let n0 : Int := nOff.1
      let off : Int := nOff.2
      if n0 < 0 then
        { s with r := s.r + NReferenceBytes, err := some Err.chunkLength }
      else
        let n : Int := n0 + d.threshold
        let pos : Int := s.w - 1 - off
        if off < 0 ∨ pos < 0 then
          { s with r := s.r + NReferenceBytes, err := some Err.offset }
        else if (s.out.length : Int) < pos + n then
          { out := s.out ++ s.out.drop pos.toNat, r := s.r + NReferenceBytes,
            w := s.w, err := some Err.chunkLength }
        else
          { out := s.out ++ (s.out.drop pos.toNat).take n.toNat,
            r := s.r + NReferenceBytes, w := s.w + n, err := none }

/-- The flag loop `for i := uint(0); i < NFlags; i++` of `Decoder.Decode`,
written with the remaining iteration count `k` as the recursion argument;
the flag index of the current iteration is `NFlags - k`.  The loop is
entered with `k = NFlags` and stops early on the first error (Go returns
from inside the loop). -/
def subRounds (d : Decoder) (inp : List Nat) (flags : Nat) :
    Nat → SubState → SubState
  | 0, s => s
  | k + 1, s =>
    let s' := subRoundStep d inp flags (NFlags - (k + 1)) s
    match s'.err with
    | some _ => s'
    | none => subRounds d inp flags k s'

/-- The outer loop `for r < l` of `Decoder.Decode`.  The first argument is
recursion fuel: every iteration consumes at least one input byte, so
`inp.length` fuel is always enough (see `decodeLoop_fuel_congr`), and
`Decoder.Decode` passes exactly that. -/
def decodeLoop (d : Decoder) (inp : List Nat) :
    Nat → Nat → Int → List Nat → List Nat × Option Err
  | 0, _, _, out => (out, none)
  | fuel + 1, r, w, out =>
    if h : r < inp.length then
      let flags := inp[r]
      if flags = 0 then
        -- optimized special case: all eight rounds are literal copies
        if inp.length < r + 1 + NFlags then
          (out ++ inp.drop (r + 1), some Err.unexpectedEOF)
        else
          decodeLoop d inp fuel (r + 1 + NFlags) (w + (NFlags : Int))
            (out ++ (inp.drop (r + 1)).take NFlags)
      else
        let s := subRounds d inp flags NFlags
          { out := out, r := r + 1, w := w, err := none }
        match s.err with
        | some e => (s.out, some e)
        | none => decodeLoop d inp fuel s.r s.w s.out
    else (out, none)

/-- `func (d *Decoder) Decode(in []byte) ([]byte, error)`. -/
def Decoder.Decode (d : Decoder) (inp : List Nat) : List Nat × Option Err :=
  decodeLoop d inp inp.length 0 0 []

/-- The decoder produced by `NewDecoder(MSB)`. -/
def defaultDecoderMSB : Decoder :=
  { order := MSB, threshold := (DefaultThreshold : Int),
    flagFunc := DefaultFlagFunc, referenceFunc := DefaultReferenceFunc }

/-- A decoder, accepted by `NewCustomDecoder`, whose flag function always
reports a reference sub-round, including for a zero control byte. -/
def alwaysRefDecoder : Decoder :=
  { order := MSB, threshold := (DefaultThreshold : Int),
    flagFunc := fun _ _ => false, referenceFunc := DefaultReferenceFunc }

/-- Modelled from the spec (§4.3, §8 "Zero control byte shortcut
equivalence"): the general decode path that consults `flagFunc` for each of
the 8 sub-rounds of every control byte, with no special shortcut for a zero
control byte.  It exists only to be compared with `decodeLoop`, which takes
the shortcut. -/
def decodeLoopGeneral (d : Decoder) (inp : List Nat) :
    Nat → Nat → Int → List Nat → List Nat × Option Err
  | 0, _, _, out => (out, none)
  | fuel + 1, r, w, out =>
    if h : r < inp.length then
      let flags := inp[r]
      let s := subRounds d inp flags NFlags
        { out := out, r := r + 1, w := w, err := none }
      match s.err with
      | some e => (s.out, some e)
      | none => decodeLoopGeneral d inp fuel s.r s.w s.out
    else (out, none)

/-- `Decode` along the general path (no zero-control-byte shortcut). -/
def decodeGeneral (d : Decoder) (inp : List Nat) : List Nat × Option Err :=
  decodeLoopGeneral d inp inp.length 0 0 []

/-- `subRoundStep` instrumented for panics: identical to `subRoundStep`,
except that it returns `none` at each point where the Go code would panic
on a slice-bound violation (`out[pos:]` needs `pos ≤ len(out)`;
`out[pos:pos+n]` needs `0 ≤ n`; every other access in the source is
syntactically guarded by a preceding length check). -/
def subRoundStepC (d : Decoder) (inp : List Nat) (flags : Nat) (i : Nat)
    (s : SubState) : Option SubState :=
  if d.flagFunc flags i then
    if h : s.r < inp.length then
      some { out := s.out ++ [inp[s.r]], r := s.r + 1, w := s.w + 1, err := none }
    else
      some { s with err := some Err.unexpectedEOF }
  else
    if inp.length < s.r + NReferenceBytes then
      some { s with err := some Err.unexpectedEOF }
    else
      let refBytes := (inp.drop s.r).take NReferenceBytes
      let nOff := d.referenceFunc refBytes d.order
      let n0 : Int := nOff.1
      let off : Int := nOff.2
      if n0 < 0 then
        some { s with r := s.r + NReferenceBytes, err := some Err.chunkLength }
      else
        let n : Int := n0 + d.threshold
        let pos : Int := s.w - 1 - off
        if off < 0 ∨ pos < 0 then
          some { s with r := s.r + NReferenceBytes, err := some Err.offset }
        else if (s.out.length : Int) < pos + n then
          if pos ≤ (s.out.length : Int) then
            some { out := s.out ++ s.out.drop pos.toNat, r := s.r + NReferenceBytes,
                   w := s.w, err := some Err.chunkLength }
          else none
        else
          if 0 ≤ n then
            some { out := s.out ++ (s.out.drop pos.toNat).take n.toNat,
                   r := s.r + NReferenceBytes, w := s.w + n, err := none }
          else none

/-- Panic-instrumented version of `subRounds`. -/
def subRoundsC (d : Decoder) (inp : List Nat) (flags : Nat) :
    Nat → SubState → Option SubState
  | 0, s => some s
  | k + 1, s =>
    match subRoundStepC d inp flags (NFlags - (k + 1)) s with
    | none => none
    | some s' =>
      match s'.err with
      | some _ => some s'
      | none => subRoundsC d inp flags k s'

/-- Panic-instrumented version of `decodeLoop`. -/
def decodeLoopC (d : Decoder) (inp : List Nat) :
    Nat → Nat → Int → List Nat → Option (List Nat × Option Err)
  | 0, _, _, out => some (out, none)
  | fuel + 1, r, w, out =>
    if h : r < inp.length then
      let flags := inp[r]
      if flags = 0 then
        if inp.length < r + 1 + NFlags then
          some (out ++ inp.drop (r + 1), some Err.unexpectedEOF)
        else
          decodeLoopC d inp fuel (r + 1 + NFlags) (w + (NFlags : Int))
            (out ++ (inp.drop (r + 1)).take NFlags)
      else
        match subRoundsC d inp flags NFlags
          { out := out, r := r + 1, w := w, err := none } with
        | none => none
        | some s =>
          match s.err with
          | some e => some (s.out, some e)
          | none => decodeLoopC d inp fuel s.r s.w s.out
    else some (out, none)

/-- Panic-instrumented `Decode`: `none` exactly when the Go code would
panic on a slice-bound violation. -/
def decodeChecked (d : Decoder) (inp : List Nat) : Option (List Nat × Option Err) :=
  decodeLoopC d inp inp.length 0 0 []

/-! ## The streaming decoder of reader.go -/

namespace Reader

/-- `ctlWidth = 8`. -/
abbrev ctlWidth : Nat := 8

/-- `offsetWidth = 12`. -/
abbrev offsetWidth : Nat := 12

/-- `sizeWidth = 4`. -/
abbrev sizeWidth : Nat := 4

/-- `threshold = 2` (a package constant in reader.go). -/
abbrev threshold : Nat := 2

/-- `windowSize = 1 << offsetWidth`. -/
abbrev windowSize : Nat := 1 <<< offsetWidth

/-- `flushBuffer = 2 * windowSize`. -/
abbrev flushBuffer : Nat := 2 * windowSize

/-- `maxBytes = threshold + 1<<sizeWidth`. -/
abbrev maxBytes : Nat := threshold + 1 <<< sizeWidth

/-- `maxDecode = ctlWidth * maxBytes`. -/
abbrev maxDecode : Nat := ctlWidth * maxBytes

/-- The errors the streaming decoder can store in `d.err`. -/
inductive RErr where
  | eof            -- io.EOF, as returned by the byte source
  | unexpectedEOF  -- io.ErrUnexpectedEOF
  | offsetOut      -- "lzss: relative offset out of bounds"
  | unknownOrder   -- "lzss: unknown order"
  | closed         -- errClosed
deriving DecidableEq, Repr

/-- The `decoder` struct of reader.go together with its byte source:
`src`/`ri` model the `io.ByteReader` (a byte sequence and the number of
bytes already consumed), `output` the fixed `[flushBuffer + maxDecode]byte`
array, `o` the write index and `toRead` the flushed bytes not yet returned
by `Read`. -/
structure State where
  src : List Nat
  ri : Nat
  order : Order
  err : Option RErr
  output : List Nat
  o : Nat
  toRead : List Nat
deriving DecidableEq, Repr

/-- `d.r.ReadByte()`: `none` is `io.EOF`. -/
def readByte (s : State) : Option (Nat × State) :=
  if h : s.ri < s.src.length then
    some (s.src[s.ri], { s with ri := s.ri + 1 })
  else none

/-- Write `vals` into `l` starting at index `i` — the effect of Go's
`copy(l[i:i+len(vals)], vals)` for an in-bounds destination.  (Go's `copy`
has memmove semantics: callers below materialise the source bytes before
writing, exactly as `copy` reads them before overwriting.) -/
def setRange (l : List Nat) : Nat → List Nat → List Nat
  | _, [] => l
  | i, v :: vs => setRange (l.set i v) (i + 1) vs

/-- `func (d *decoder) flush() { d.toRead = d.output[:d.o]; d.o = 0 }`. -/
def flush (s : State) : State :=
  { s with toRead := s.output.take s.o, o := 0 }

/-- The `ctl == 0` shortcut loop of `decode`: 8 literal byte copies.
On `io.EOF`, `d.output[d.o], d.err = d.r.ReadByte()` writes a zero byte at
`d.o` and stores the error, and the loop returns. -/
def literalLoop : Nat → State → State
  | 0, s => s
  | k + 1, s =>
    match readByte s with
    | none => { s with output := s.output.set s.o 0, err := some RErr.eof }
    | some (b, s1) =>
      literalLoop k { s1 with output := s1.output.set s1.o b, o := s1.o + 1 }

/-- The general `for i := 0; i < ctlWidth; i++` loop of `decode` in
reader.go, which tests `ctl&0x80` and executes `ctl <<= 1` (a byte shift)
after every sub-round. -/
def ctlLoop : Nat → Nat → State → State
  | 0, _, s => s
  | k + 1, ctl, s =>
    if ctl &&& 0x80 = 0 then
      match readByte s with
      | none => { s with output := s.output.set s.o 0, err := some RErr.eof }
      | some (b, s1) =>
        ctlLoop k ((ctl <<< 1) % 256) { s1 with output := s1.output.set s1.o b, o := s1.o + 1 }
    else
      match readByte s with
      | none => { s with err := some RErr.eof }
      | some (b1, s1) =>
        match readByte s1 with
        | none => { s1 with err := some RErr.eof }
        | some (b2, s2) =>
          -- lo is read first, hi second; `if d.order == MSB { lo, hi = hi, lo }`
          let lo : Nat := if s2.order = MSB then b2 else b1
          let hi : Nat := if s2.order = MSB then b1 else b2
          let code : Nat := (hi <<< 8) ||| lo
          let n : Nat := (code &&& (1 <<< sizeWidth - 1)) + threshold + 1
          let relOff : Nat := (code >>> 4) + 1
          let pos : Int := (s2.o : Int) - relOff
          if pos < 0 then { s2 with err := some RErr.offsetOut }
          else
            let src := (s2.output.drop pos.toNat).take n
            ctlLoop k ((ctl <<< 1) % 256)
              { s2 with output := setRange s2.output s2.o src, o := s2.o + n }

/-- The body of `func (d *decoder) decode()` before the deferred block:
read the control byte (on `io.EOF` flush and return), then run either the
zero-control shortcut or the general loop. -/
def decodeBody (s : State) : State :=
  match readByte s with
  | none => flush s
  | some (ctl, s1) =>
    if ctl = 0 then literalLoop ctlWidth s1
    else ctlLoop ctlWidth ctl s1

/-- The deferred block of `decode`: turn `io.EOF` into
`io.ErrUnexpectedEOF`, then flush if `d.o >= flushBuffer` or an error is
pending. -/
def deferBlock (s : State) : State :=
  let s1 := if s.err = some RErr.eof then { s with err := some RErr.unexpectedEOF } else s
  if flushBuffer ≤ s1.o ∨ s1.err.isSome then flush s1 else s1

/-- One full call of `func (d *decoder) decode()`. -/
def decodeStep (s : State) : State := deferBlock (decodeBody s)

/-- `func (d *decoder) Close() error { d.err = errClosed; return nil }`. -/
def Close (s : State) : State := { s with err := some RErr.closed }

/-- `func (d *decoder) Read(b []byte)` with `k = len(b)`.  The first
argument is a bound on the number of iterations of the `for` loop (the Go
loop has no bound and can spin at a clean end of stream, so the total model
needs one); `none` means the loop did not return within `fuel` iterations. -/
def Read : Nat → State → Nat → Option (List Nat × Option RErr × State)
  | 0, _, _ => none
  | fuel + 1, s, k =>
    if s.toRead.length > 0 then
      some (s.toRead.take k, none, { s with toRead := s.toRead.drop k })
    else if s.err.isSome then
      some ([], s.err, s)
    else
      Read fuel (decodeStep s) k

/-- `func NewReader(r io.Reader, order Order) io.ReadCloser`.  The Go
array `output` starts zero-valued. -/
def NewReader (src : List Nat) (order : Order) : State :=
  if order ≠ LSB ∧ order ≠ MSB then
    { src := src, ri := 0, order := order, err := some RErr.unknownOrder,
      output := List.replicate (flushBuffer + maxDecode) 0, o := 0, toRead := [] }
  else
    { src := src, ri := 0, order := order, err := none,
      output := List.replicate (flushBuffer + maxDecode) 0, o := 0, toRead := [] }

end Reader

/-- A small source stream: one zero control byte and eight literals. -/
def demoSrc : List Nat := [0, 1, 2, 3, 4, 5, 6, 7, 8]

/-- Three `Read` iterations on `demoSrc`: decode the 8 literals, flush at
end of input, and return the first 4 decoded bytes. -/
def c9Run : Option (List Nat × Option Reader.RErr × Reader.State) :=
  Reader.Read 3 (Reader.NewReader demoSrc MSB) 4

/-- The streaming state after `c9Run`: 4 decoded bytes still buffered in
`toRead`. -/
def c9State : Reader.State :=
  (c9Run.getD ([], none, Reader.NewReader [] MSB)).2.2

/-! ## Helper lemmas -/

theorem lor256 (a b : Nat) (hb : b < 256) : a <<< 8 ||| b = 256 * a + b := by
  have hb' : b < 2 ^ 8 := by omega
  calc a <<< 8 ||| b = 2 ^ 8 * a ||| b := by rw [Nat.shiftLeft_eq, Nat.mul_comm]
    _ = 2 ^ 8 * a + b := (Nat.mul_add_lt_is_or hb' a).symm
    _ = 256 * a + b := by norm_num

theorem and15 (x : Nat) : x &&& 15 = x % 16 := by
  have h := Nat.and_pow_two_sub_one_eq_mod x 4
  norm_num at h
  exact h

theorem and4095 (x : Nat) : x &&& 4095 = x % 4096 := by
  have h := Nat.and_pow_two_sub_one_eq_mod x 12
  norm_num at h
  exact h

/-- The actual split performed by `DefaultReferenceFunc`, expressed on the
reassembled 16-bit code `hi<<8 | lo`: the length is the top `NLengthBits`
bits and the offset the low `NOffsetBits` bits. -/
theorem defaultRefSplit (hi lo : Nat) (hlo : lo < 256) :
    (hi >>> NLengthBits : Nat) = (hi <<< 8 ||| lo) >>> NOffsetBits ∧
    ((hi &&& OffsetMask) <<< 8) ||| lo = (hi <<< 8 ||| lo) &&& (1 <<< NOffsetBits - 1) := by
  have e1 : hi <<< 8 ||| lo = 256 * hi + lo := lor256 hi lo hlo
  have e2 : (hi &&& OffsetMask) <<< 8 ||| lo = 256 * (hi % 16) + lo := by
    have h15 : hi &&& OffsetMask = hi % 16 := and15 hi
    rw [h15]
    exact lor256 _ lo hlo
  constructor
  · rw [Nat.shiftRight_eq_div_pow, e1, Nat.shiftRight_eq_div_pow]
    norm_num
    omega
  · rw [e2, e1]
    show 256 * (hi % 16) + lo = (256 * hi + lo) &&& 4095
    rw [and4095]
    omega

set_option maxRecDepth 2048 in
theorem flagFuncTestBitAux : ∀ f : Fin 256, ∀ i : Fin 8,
    (DefaultFlagFunc f i = true ↔ Nat.testBit f (7 - i) = false) := by decide

/-! ## C1: behaviour of a reference whose source interval extends past the
current end of the output -/

/-- C1 counterexample.  With the default MSB decoder, the input
`[0x20, 'A', 'B', 0x00, 0x00]` encodes two literals followed by a
reference with offset 0 and copy length `0 + threshold = 3`, so
`copyStart = 1` and `copyStart + copyLength = 4 > writePos = 2`.  The claim
says this is decoded as a self-extending overlapping copy (no error,
output `"AB" ++ "BBB"`); `Decode` instead returns `ErrChunkLength` with the
output extended only by `out[copyStart:]`. -/
theorem c1_counterexample :
    Decoder.Decode defaultDecoderMSB [32, 65, 66, 0, 0] =
      ([65, 66, 66], some Err.chunkLength) ∧
    Decoder.Decode defaultDecoderMSB [32, 65, 66, 0, 0] ≠
      ([65, 66, 66, 66, 66], none) := by decide

/-- C1 amended: in a reference sub-round whose decoded length is
non-negative and whose copy source interval extends past the current end of
the output (`copyStart + copyLength > writePos` with `copyStart ≥ 0`),
`Decode` does not perform a self-extending overlapping copy: it stops with
`ErrChunkLength`, returning the output extended by the truncated source
suffix `out[copyStart:]`. -/
theorem c1_theorem (d : Decoder) (inp : List Nat) (flags i : Nat)
    (s : SubState) (n0 off : Int)
    (hflag : d.flagFunc flags i = false)
    (hlen : s.r + NReferenceBytes ≤ inp.length)
    (href : d.referenceFunc ((inp.drop s.r).take NReferenceBytes) d.order = (n0, off))
    (hn0 : 0 ≤ n0) (hoff : 0 ≤ off) (hpos : 0 ≤ s.w - 1 - off)
    (hover : (s.out.length : Int) < (s.w - 1 - off) + (n0 + d.threshold)) :
    subRoundStep d inp flags i s =
      { out := s.out ++ s.out.drop (s.w - 1 - off).toNat,
        r := s.r + NReferenceBytes, w := s.w, err := some Err.chunkLength } := by
  rw [subRoundStep, hflag]
  simp only [Bool.false_eq_true, if_false, href]
  rw [if_neg (by omega), if_neg (by omega), if_neg (by omega), if_pos (by omega)]

/-- C1 witness: the amended statement at the concrete reference sub-round
reached by the counterexample input. -/
theorem c1_witness :
    subRoundStep defaultDecoderMSB [0, 0] 32 2 { out := [65, 66], r := 0, w := 2, err := none } =
      { out := [65, 66, 66], r := 2, w := 2, err := some Err.chunkLength } :=
  (c1_theorem defaultDecoderMSB [0, 0] 32 2 { out := [65, 66], r := 0, w := 2, err := none }
    0 0 (by decide) (by decide) (by decide) (by decide) (by decide) (by decide)
    (by decide)).trans (by decide)

/-! ## C3: validation in NewCustomDecoder -/

/-- C3: `NewCustomDecoder` fails with `ErrOrder` for every order outside
{LSB, MSB}; otherwise with `ErrNilParameter` when a function parameter is
nil; otherwise with `ErrThreshold` for every `threshold < ThresholdMin`;
for all remaining arguments it returns a decoder holding them; and
`ThresholdMin = NReferenceBytes + 1`. -/
theorem c3_theorem (order : Order) (ff : Option FlagFuncType)
    (rf : Option ReferenceFuncType) (t : Int) :
    (¬(order = LSB ∨ order = MSB) →
      NewCustomDecoder order ff rf t = Except.error Err.order) ∧
    ((order = LSB ∨ order = MSB) → (ff = none ∨ rf = none) →
      NewCustomDecoder order ff rf t = Except.error Err.nilParameter) ∧
    (∀ f g, (order = LSB ∨ order = MSB) → ff = some f → rf = some g →
      t < (ThresholdMin : Int) →
      NewCustomDecoder order ff rf t = Except.error Err.threshold) ∧
    (∀ f g, (order = LSB ∨ order = MSB) → ff = some f → rf = some g →
      (ThresholdMin : Int) ≤ t →
      NewCustomDecoder order ff rf t = Except.ok
        { order := order, threshold := t, flagFunc := f, referenceFunc := g }) ∧
    ThresholdMin = NReferenceBytes + 1 := by
  refine ⟨?_, ?_, ?_, ?_, rfl⟩
  · intro h
    push_neg at h
    obtain ⟨h1, h2⟩ := h
    cases ff <;> cases rf <;> simp [NewCustomDecoder, h1, h2]
  · intro ho hnil
    have hc : ¬(order ≠ LSB ∧ order ≠ MSB) := by tauto
    rcases hnil with h | h
    · subst h
      cases rf <;> simp [NewCustomDecoder, hc]
    · subst h
      cases ff <;> simp [NewCustomDecoder, hc]
  · intro f g ho hf hg ht
    subst hf; subst hg
    have hc : ¬(order ≠ LSB ∧ order ≠ MSB) := by tauto
    have h3 : (ThresholdMin : Int) = 3 := rfl
    simp [NewCustomDecoder, hc, ht]
    omega
  · intro f g ho hf hg ht
    subst hf; subst hg
    have hc : ¬(order ≠ LSB ∧ order ≠ MSB) := by tauto
    have ht' : ¬ t < (ThresholdMin : Int) := by omega
    have h3 : (ThresholdMin : Int) = 3 := rfl
    simp [NewCustomDecoder, hc, ht']
    omega

/-- C3 witness: each case of the validation at concrete arguments. -/
theorem c3_witness :
    NewCustomDecoder 5 none none 3 = Except.error Err.order ∧
    NewCustomDecoder MSB none (some DefaultReferenceFunc) 3 =
      Except.error Err.nilParameter ∧
    NewCustomDecoder MSB (some DefaultFlagFunc) (some DefaultReferenceFunc) 2 =
      Except.error Err.threshold ∧
    NewCustomDecoder LSB (some DefaultFlagFunc) (some DefaultReferenceFunc) 3 =
      Except.ok { order := LSB, threshold := 3, flagFunc := DefaultFlagFunc,
                  referenceFunc := DefaultReferenceFunc } :=
  ⟨(c3_theorem 5 none none 3).1 (by decide),
   (c3_theorem MSB none (some DefaultReferenceFunc) 3).2.1 (by decide) (Or.inl rfl),
   (c3_theorem MSB (some DefaultFlagFunc) (some DefaultReferenceFunc) 2).2.2.1
     DefaultFlagFunc DefaultReferenceFunc (by decide) rfl rfl (by decide),
   (c3_theorem LSB (some DefaultFlagFunc) (some DefaultReferenceFunc) 3).2.2.2.1
     DefaultFlagFunc DefaultReferenceFunc (by decide) rfl rfl (by decide)⟩

/-! ## C4: shape of a completed reference sub-round -/

/-- C4: in a reference sub-round with enough input bytes and a
non-negative decoded length, exactly `NReferenceBytes` input bytes are
consumed, the error is `ErrOffset` exactly when `offset < 0` or
`writePos - 1 - offset < 0`, and on success the copy appends
`copyLength = decodedLength + threshold` bytes starting at
`copyStart = writePos - 1 - offset`. -/
theorem c4_theorem (d : Decoder) (inp : List Nat) (flags i : Nat)
    (s : SubState) (n0 off : Int)
    (hflag : d.flagFunc flags i = false)
    (hlen : s.r + NReferenceBytes ≤ inp.length)
    (href : d.referenceFunc ((inp.drop s.r).take NReferenceBytes) d.order = (n0, off))
    (hn0 : 0 ≤ n0) :
    ((subRoundStep d inp flags i s).r = s.r + NReferenceBytes) ∧
    ((subRoundStep d inp flags i s).err = some Err.offset ↔
      off < 0 ∨ s.w - 1 - off < 0) ∧
    ((subRoundStep d inp flags i s).err = none →
      (subRoundStep d inp flags i s).out =
        s.out ++ (s.out.drop (s.w - 1 - off).toNat).take (n0 + d.threshold).toNat ∧
      (subRoundStep d inp flags i s).w = s.w + (n0 + d.threshold)) := by
  rw [subRoundStep, hflag]
  simp only [Bool.false_eq_true, if_false, href]
  rw [if_neg (by omega), if_neg (by omega)]
  by_cases hbad : off < 0 ∨ s.w - 1 - off < 0
  · rw [if_pos hbad]
    refine ⟨rfl, iff_of_true rfl hbad, ?_⟩
    intro h
    simp at h
  · rw [if_neg hbad]
    by_cases hover : (s.out.length : Int) < s.w - 1 - off + (n0 + d.threshold)
    · rw [if_pos hover]
      refine ⟨rfl, iff_of_false (by simp) hbad, ?_⟩
      intro h
      simp at h
    · rw [if_neg hover]
      exact ⟨rfl, iff_of_false (by simp) hbad, fun _ => ⟨rfl, rfl⟩⟩

/-- C4 witness: a successful in-bounds reference sub-round of the default
MSB decoder. -/
theorem c4_witness :
    (subRoundStep defaultDecoderMSB [0, 2] 32 2
      { out := [65, 66, 67, 68], r := 0, w := 4, err := none }).r = 0 + NReferenceBytes ∧
    ((subRoundStep defaultDecoderMSB [0, 2] 32 2
      { out := [65, 66, 67, 68], r := 0, w := 4, err := none }).err = some Err.offset ↔
      (2 : Int) < 0 ∨ (4 : Int) - 1 - 2 < 0) := by
  have h := c4_theorem defaultDecoderMSB [0, 2] 32 2
    { out := [65, 66, 67, 68], r := 0, w := 4, err := none } 0 2
    (by decide) (by decide) (by decide) (by decide)
  exact ⟨h.1, h.2.1⟩

/-! ## C5: the split performed by DefaultReferenceFunc -/

/-- C5 counterexample.  For the byte pair (0x12, 0x34) in MSB order the
reassembled code is 0x1234 = 4660.  The claim predicts
`length = code & 0xF = 4` and `offset = code >> 4 = 291`;
`DefaultReferenceFunc` actually returns `length = 1` and `offset = 564`. -/
theorem c5_counterexample :
    DefaultReferenceFunc [18, 52] MSB = (1, 564) ∧
    ((1 : Int), (564 : Int)) ≠
      (Int.ofNat (((18 <<< 8 ||| 52) : Nat) &&& (1 <<< NLengthBits - 1)),
       Int.ofNat (((18 <<< 8 ||| 52) : Nat) >>> NLengthBits)) := by decide

/-- C5 amended: with the code reassembled per the configured order,
`DefaultReferenceFunc` performs the reverse split from the one claimed:
`length = code >> NOffsetBits` (the top `NLengthBits` bits) and
`offset = code & ((1 << NOffsetBits) - 1)` (the low `NOffsetBits` bits). -/
theorem c5_theorem (b0 b1 : Nat) (h0 : b0 < 256) (h1 : b1 < 256)
    (o : Order) (ho : o = LSB ∨ o = MSB) :
    DefaultReferenceFunc [b0, b1] o =
      (Int.ofNat ((if o = LSB then b1 <<< 8 ||| b0 else b0 <<< 8 ||| b1) >>> NOffsetBits),
       Int.ofNat ((if o = LSB then b1 <<< 8 ||| b0 else b0 <<< 8 ||| b1) &&&
         (1 <<< NOffsetBits - 1))) := by
  rcases ho with h | h <;> subst h
  · have e : DefaultReferenceFunc [b0, b1] LSB =
        (Int.ofNat (b1 >>> NLengthBits), Int.ofNat (((b1 &&& OffsetMask) <<< 8) ||| b0)) := rfl
    rw [e, if_pos rfl]
    have hs := defaultRefSplit b1 b0 h0
    rw [Prod.mk.injEq]
    exact ⟨congrArg Int.ofNat hs.1, congrArg Int.ofNat hs.2⟩
  · have e : DefaultReferenceFunc [b0, b1] MSB =
        (Int.ofNat (b0 >>> NLengthBits), Int.ofNat (((b0 &&& OffsetMask) <<< 8) ||| b1)) := rfl
    rw [e, if_neg (by decide : ¬(MSB = LSB))]
    have hs := defaultRefSplit b0 b1 h1
    rw [Prod.mk.injEq]
    exact ⟨congrArg Int.ofNat hs.1, congrArg Int.ofNat hs.2⟩

/-- C5 witness: the amended split at the counterexample bytes. -/
theorem c5_witness :
    DefaultReferenceFunc [18, 52] MSB =
      (Int.ofNat (((18 <<< 8 ||| 52) : Nat) >>> NOffsetBits),
       Int.ofNat (((18 <<< 8 ||| 52) : Nat) &&& (1 <<< NOffsetBits - 1))) :=
  (c5_theorem 18 52 (by decide) (by decide) MSB (by decide)).trans (by decide)

/-! ## C7: DefaultFlagFunc consumes the control byte MSB-first -/

/-- C7: for every control byte and bit index `i < 8`, `DefaultFlagFunc`
reports a literal exactly when bit `7 - i` (numbering the most significant
bit as 7) of the control byte is zero.  `DefaultFlagFunc` does not receive
the configured byte order at all, so the result is independent of it. -/
theorem c7_theorem (flags i : Nat) (hf : flags < 256) (hi : i < 8) :
    (DefaultFlagFunc flags i = true ↔ Nat.testBit flags (7 - i) = false) := by
  have h := flagFuncTestBitAux ⟨flags, hf⟩ ⟨i, hi⟩
  simpa using h

/-- C7 witness: control byte 0x80, bit index 0. -/
theorem c7_witness :
    (DefaultFlagFunc 128 0 = true ↔ Nat.testBit 128 7 = false) := by
  have h := c7_theorem 128 0 (by decide) (by decide)
  simpa using h

/-! ## C6: zero-control-byte shortcut equivalence -/

/-- Running `k` flag-loop iterations over a control byte whose flags all
say "literal", with `k` input bytes available: `k` literals are copied. -/
theorem subRoundsLitComplete (d : Decoder) (inp : List Nat) (flags : Nat)
    (hlit : ∀ j, j < NFlags → d.flagFunc flags j = true) :
    ∀ k out r w, r + k ≤ inp.length →
      subRounds d inp flags k ⟨out, r, w, none⟩ =
        ⟨out ++ (inp.drop r).take k, r + k, w + (k : Int), none⟩ := by
  intro k
  induction k with
  | zero =>
    intro out r w _
    simp [subRounds]
  | succ k ih =>
    intro out r w hk
    have hr : r < inp.length := by omega
    have hstep : subRoundStep d inp flags (NFlags - (k + 1)) ⟨out, r, w, none⟩ =
        ⟨out ++ [inp[r]], r + 1, w + 1, none⟩ := by
      rw [subRoundStep, hlit (NFlags - (k + 1)) (Nat.sub_lt (by decide) k.succ_pos), if_pos rfl, dif_pos hr]
    simp only [subRounds, hstep]
    rw [ih (out ++ [inp[r]]) (r + 1) (w + 1) (by omega)]
    congr 1
    · rw [List.append_assoc, List.drop_eq_getElem_cons hr, List.take_succ_cons,
        List.singleton_append]
    · omega
    · push_cast
      ring

/-- Running `k` flag-loop iterations over an all-literal control byte with
fewer than `k` input bytes left: the available bytes are copied, then the
loop stops with `io.ErrUnexpectedEOF`. -/
theorem subRoundsLitEof (d : Decoder) (inp : List Nat) (flags : Nat)
    (hlit : ∀ j, j < NFlags → d.flagFunc flags j = true) :
    ∀ k out r w, inp.length < r + k → r ≤ inp.length →
      subRounds d inp flags k ⟨out, r, w, none⟩ =
        ⟨out ++ inp.drop r, inp.length, w + ((inp.length - r : Nat) : Int),
          some Err.unexpectedEOF⟩ := by
  intro k
  induction k with
  | zero =>
    intro out r w hk hr
    exact absurd hk (by omega)
  | succ k ih =>
    intro out r w hk hr
    by_cases hr' : r < inp.length
    · have hstep : subRoundStep d inp flags (NFlags - (k + 1)) ⟨out, r, w, none⟩ =
          ⟨out ++ [inp[r]], r + 1, w + 1, none⟩ := by
        rw [subRoundStep, hlit (NFlags - (k + 1)) (Nat.sub_lt (by decide) k.succ_pos), if_pos rfl, dif_pos hr']
      simp only [subRounds, hstep]
      rw [ih (out ++ [inp[r]]) (r + 1) (w + 1) (by omega) (by omega)]
      congr 1
      · rw [List.append_assoc, List.drop_eq_getElem_cons hr', List.singleton_append]
      · omega
    · have hreq : r = inp.length := by omega
      have hstep : subRoundStep d inp flags (NFlags - (k + 1)) ⟨out, r, w, none⟩ =
          ⟨out, r, w, some Err.unexpectedEOF⟩ := by
        rw [subRoundStep, hlit (NFlags - (k + 1)) (Nat.sub_lt (by decide) k.succ_pos), if_pos rfl, dif_neg hr']
      subst hreq
      simp only [subRounds, hstep]
      congr 1
      · simp
      · omega

/-- The zero-control-byte shortcut of `decodeLoop` agrees with the general
path `decodeLoopGeneral` whenever the decoder's flag function reports a
literal for every bit of a zero control byte. -/
theorem decodeLoopShortcutEq (d : Decoder) (inp : List Nat)
    (hlit : ∀ j, j < NFlags → d.flagFunc 0 j = true) :
    ∀ fuel r w out, decodeLoop d inp fuel r w out = decodeLoopGeneral d inp fuel r w out := by
  intro fuel
  induction fuel with
  | zero => intro r w out; rfl
  | succ fuel ih =>
    intro r w out
    simp only [decodeLoop, decodeLoopGeneral]
    by_cases h : r < inp.length
    · rw [dif_pos h, dif_pos h]
      by_cases hf : inp[r] = 0
      · rw [hf]
        by_cases hlen : inp.length < r + 1 + NFlags
        · rw [if_pos rfl, if_pos hlen,
            subRoundsLitEof d inp 0 hlit NFlags out (r + 1) w (by omega) (by omega)]
        · rw [if_pos rfl, if_neg hlen,
            subRoundsLitComplete d inp 0 hlit NFlags out (r + 1) w (by omega)]
          exact ih _ _ _
      · rw [if_neg hf]
        cases hs : (subRounds d inp (inp[r]) NFlags ⟨out, r + 1, w, none⟩).err with
        | none =>
          simp only [hs]
          exact ih _ _ _
        | some e => simp only [hs]
    · rw [dif_neg h, dif_neg h]

/-- C6 counterexample.  The shortcut fires on the control byte alone
(`flags == 0`), without consulting `flagFunc`; for a decoder accepted by
`NewCustomDecoder` whose flag function reports a reference on every bit,
the shortcut path and the general path disagree. -/
theorem c6_counterexample :
    NewCustomDecoder MSB (some (fun _ _ => false)) (some DefaultReferenceFunc)
      (DefaultThreshold : Int) = Except.ok alwaysRefDecoder ∧
    Decoder.Decode alwaysRefDecoder [0, 1, 2, 3, 4, 5, 6, 7, 8] =
      ([1, 2, 3, 4, 5, 6, 7, 8], none) ∧
    decodeGeneral alwaysRefDecoder [0, 1, 2, 3, 4, 5, 6, 7, 8] =
      ([], some Err.offset) :=
  ⟨rfl, by decide, by decide⟩

/-- C6 amended: for every decoder whose flag function treats each bit of a
zero control byte as a literal (the default flag function does, for
example), the bulk shortcut produces output and error identical to the
general path that consults `flagFunc` for each of the 8 sub-rounds,
including on truncated input.  For decoders whose flag function reports
references on a zero control byte the two paths differ
(`c6_counterexample`). -/
theorem c6_theorem (d : Decoder) (inp : List Nat)
    (hlit : ∀ j, j < NFlags → d.flagFunc 0 j = true) :
    Decoder.Decode d inp = decodeGeneral d inp :=
  decodeLoopShortcutEq d inp hlit inp.length 0 0 []

/-- C6 witness: the default decoder on a truncated zero-control-byte
stream. -/
theorem c6_witness :
    Decoder.Decode defaultDecoderMSB [0, 1, 2] = decodeGeneral defaultDecoderMSB [0, 1, 2] ∧
    Decoder.Decode defaultDecoderMSB [0, 1, 2] = ([1, 2], some Err.unexpectedEOF) :=
  ⟨c6_theorem defaultDecoderMSB [0, 1, 2] (by decide), by decide⟩

/-! ## C2: truncation behaviour of Decode -/

/-- A sub-round only appends to the output. -/
theorem subRoundStepOutMono (d : Decoder) (inp : List Nat) (flags i : Nat)
    (s : SubState) : ∃ t, s.out ++ t = (subRoundStep d inp flags i s).out := by
  simp only [subRoundStep]
  by_cases hf : d.flagFunc flags i = true
  · rw [if_pos hf]
    by_cases hr : s.r < inp.length
    · rw [dif_pos hr]
      exact ⟨_, rfl⟩
    · rw [dif_neg hr]
      exact ⟨[], by simp⟩
  · rw [if_neg hf]
    by_cases hl : inp.length < s.r + NReferenceBytes
    · rw [if_pos hl]
      exact ⟨[], by simp⟩
    · rw [if_neg hl]
      by_cases h1 : (d.referenceFunc ((inp.drop s.r).take NReferenceBytes) d.order).1 < 0
      · rw [if_pos h1]
        exact ⟨[], by simp⟩
      · rw [if_neg h1]
        by_cases h2 : (d.referenceFunc ((inp.drop s.r).take NReferenceBytes) d.order).2 < 0 ∨
            s.w - 1 - (d.referenceFunc ((inp.drop s.r).take NReferenceBytes) d.order).2 < 0
        · rw [if_pos h2]
          exact ⟨[], by simp⟩
        · rw [if_neg h2]
          by_cases h3 : (s.out.length : Int) <
              s.w - 1 - (d.referenceFunc ((inp.drop s.r).take NReferenceBytes) d.order).2 +
              ((d.referenceFunc ((inp.drop s.r).take NReferenceBytes) d.order).1 + d.threshold)
          · rw [if_pos h3]
            exact ⟨_, rfl⟩
          · rw [if_neg h3]
            exact ⟨_, rfl⟩

/-- A sub-round never decreases the read index, and advances it by at most
`NReferenceBytes`. -/
theorem subRoundStepR (d : Decoder) (inp : List Nat) (flags i : Nat)
    (s : SubState) : s.r ≤ (subRoundStep d inp flags i s).r ∧
      (subRoundStep d inp flags i s).r ≤ s.r + NReferenceBytes := by
  simp only [subRoundStep]
  by_cases hf : d.flagFunc flags i = true
  · rw [if_pos hf]
    by_cases hr : s.r < inp.length
    · rw [dif_pos hr]
      exact ⟨Nat.le_succ _, Nat.add_le_add_left (by decide) s.r⟩
    · rw [dif_neg hr]
      exact ⟨Nat.le_refl _, Nat.le_add_right _ _⟩
  · rw [if_neg hf]
    by_cases hl : inp.length < s.r + NReferenceBytes
    · rw [if_pos hl]
      exact ⟨Nat.le_refl _, Nat.le_add_right _ _⟩
    · rw [if_neg hl]
      by_cases h1 : (d.referenceFunc ((inp.drop s.r).take NReferenceBytes) d.order).1 < 0
      · rw [if_pos h1]
        exact ⟨Nat.le_add_right _ _, Nat.le_refl _⟩
      · rw [if_neg h1]
        by_cases h2 : (d.referenceFunc ((inp.drop s.r).take NReferenceBytes) d.order).2 < 0 ∨
            s.w - 1 - (d.referenceFunc ((inp.drop s.r).take NReferenceBytes) d.order).2 < 0
        · rw [if_pos h2]
          exact ⟨Nat.le_add_right _ _, Nat.le_refl _⟩
        · rw [if_neg h2]
          by_cases h3 : (s.out.length : Int) <
              s.w - 1 - (d.referenceFunc ((inp.drop s.r).take NReferenceBytes) d.order).2 +
              ((d.referenceFunc ((inp.drop s.r).take NReferenceBytes) d.order).1 + d.threshold)
          · rw [if_pos h3]
            exact ⟨Nat.le_add_right _ _, Nat.le_refl _⟩
          · rw [if_neg h3]
            exact ⟨Nat.le_add_right _ _, Nat.le_refl _⟩

/-- The flag loop only appends to the output. -/
theorem subRoundsOutMono (d : Decoder) (inp : List Nat) (flags : Nat) :
    ∀ k s, ∃ t, s.out ++ t = (subRounds d inp flags k s).out := by
  intro k
  induction k with
  | zero =>
    intro s
    exact ⟨[], by simp [subRounds]⟩
  | succ k ih =>
    intro s
    obtain ⟨t1, ht1⟩ := subRoundStepOutMono d inp flags (NFlags - (k + 1)) s
    simp only [subRounds]
    cases herr : (subRoundStep d inp flags (NFlags - (k + 1)) s).err with
    | some e => exact ⟨t1, ht1⟩
    | none =>
      obtain ⟨t2, ht2⟩ := ih (subRoundStep d inp flags (NFlags - (k + 1)) s)
      exact ⟨t1 ++ t2, by rw [← List.append_assoc, ht1, ht2]⟩

/-- The flag loop never decreases the read index. -/
theorem subRoundsRGe (d : Decoder) (inp : List Nat) (flags : Nat) :
    ∀ k s, s.r ≤ (subRounds d inp flags k s).r := by
  intro k
  induction k with
  | zero =>
    intro s
    simp [subRounds]
  | succ k ih =>
    intro s
    have h1 := (subRoundStepR d inp flags (NFlags - (k + 1)) s).1
    simp only [subRounds]
    cases herr : (subRoundStep d inp flags (NFlags - (k + 1)) s).err with
    | some e => exact h1
    | none => exact le_trans h1 (ih _)

/-- The outer loop only appends to the output. -/
theorem decodeLoopOutMono (d : Decoder) (inp : List Nat) :
    ∀ fuel r w out, ∃ t, out ++ t = (decodeLoop d inp fuel r w out).1 := by
  intro fuel
  induction fuel with
  | zero =>
    intro r w out
    exact ⟨[], by simp [decodeLoop]⟩
  | succ fuel ih =>
    intro r w out
    simp only [decodeLoop]
    by_cases hr : r < inp.length
    · rw [dif_pos hr]
      by_cases hf : inp[r] = 0
      · rw [if_pos hf]
        by_cases hl : inp.length < r + 1 + NFlags
        · rw [if_pos hl]
          exact ⟨_, rfl⟩
        · rw [if_neg hl]
          obtain ⟨t2, ht2⟩ := ih (r + 1 + NFlags) (w + (NFlags : Int))
            (out ++ (inp.drop (r + 1)).take NFlags)
          exact ⟨_ ++ t2, by rw [← List.append_assoc, ht2]⟩
      · rw [if_neg hf]
        obtain ⟨t1, ht1⟩ := subRoundsOutMono d inp (inp[r]) NFlags ⟨out, r + 1, w, none⟩
        cases herr : (subRounds d inp (inp[r]) NFlags ⟨out, r + 1, w, none⟩).err with
        | some e =>
          simp only [herr]
          exact ⟨t1, ht1⟩
        | none =>
          simp only [herr]
          obtain ⟨t2, ht2⟩ := ih (subRounds d inp (inp[r]) NFlags ⟨out, r + 1, w, none⟩).r
            (subRounds d inp (inp[r]) NFlags ⟨out, r + 1, w, none⟩).w
            (subRounds d inp (inp[r]) NFlags ⟨out, r + 1, w, none⟩).out
          exact ⟨t1 ++ t2, by rw [← List.append_assoc, ht1, ht2]⟩
    · rw [dif_neg hr]
      exact ⟨[], by simp⟩

/-- Fuel irrelevance: any fuel of at least `inp.length - r` gives the same
result, since every loop iteration advances `r` by at least one. -/
theorem decodeLoopFuelCongr (d : Decoder) (inp : List Nat) :
    ∀ f1 f2 r w out, inp.length - r ≤ f1 → inp.length - r ≤ f2 →
      decodeLoop d inp f1 r w out = decodeLoop d inp f2 r w out := by
  intro f1
  induction f1 with
  | zero =>
    intro f2 r w out h1 h2
    have hr : ¬ r < inp.length := by omega
    cases f2 with
    | zero => rfl
    | succ g =>
      simp only [decodeLoop]
      rw [dif_neg hr]
  | succ f1 ih =>
    intro f2 r w out h1 h2
    cases f2 with
    | zero =>
      have hr : ¬ r < inp.length := by omega
      simp only [decodeLoop]
      rw [dif_neg hr]
    | succ g =>
      simp only [decodeLoop]
      by_cases hr : r < inp.length
      · rw [dif_pos hr, dif_pos hr]
        by_cases hf : inp[r] = 0
        · rw [if_pos hf, if_pos hf]
          by_cases hl : inp.length < r + 1 + NFlags
          · rw [if_pos hl, if_pos hl]
          · rw [if_neg hl, if_neg hl]
            exact ih g (r + 1 + NFlags) _ _ (by omega) (by omega)
        · rw [if_neg hf, if_neg hf]
          cases herr : (subRounds d inp (inp[r]) NFlags ⟨out, r + 1, w, none⟩).err with
          | some e => simp only [herr]
          | none =>
            simp only [herr]
            have hR : r + 1 ≤ (subRounds d inp (inp[r]) NFlags ⟨out, r + 1, w, none⟩).r :=
              subRoundsRGe d inp (inp[r]) NFlags ⟨out, r + 1, w, none⟩
            exact ih g _ _ _ (by omega) (by omega)
      · rw [dif_neg hr, dif_neg hr]

/-- One sub-round on the truncated input `inp.take K` either behaves
exactly as on `inp` (when its reads stay inside the prefix), or stops with
`io.ErrUnexpectedEOF` leaving the output untouched. -/
theorem subRoundStepTake (d : Decoder) (inp : List Nat) (K : Nat) (flags i : Nat)
    (s : SubState)
    (herr : (subRoundStep d inp flags i s).err = none) :
    (subRoundStep d (inp.take K) flags i s = subRoundStep d inp flags i s ∧
      (subRoundStep d inp flags i s).r ≤ (inp.take K).length) ∨
    ((subRoundStep d (inp.take K) flags i s).err = some Err.unexpectedEOF ∧
      (subRoundStep d (inp.take K) flags i s).out = s.out) := by
  by_cases hf : d.flagFunc flags i = true
  · have hrF : s.r < inp.length := by
      by_contra hc
      rw [subRoundStep, if_pos hf, dif_neg hc] at herr
      simp at herr
    by_cases hrL : s.r < (inp.take K).length
    · left
      have hg : (inp.take K)[s.r] = inp[s.r] := by
        simp [List.getElem_take]
      constructor
      · rw [subRoundStep, if_pos hf, dif_pos hrL, hg, subRoundStep, if_pos hf, dif_pos hrF]
      · rw [subRoundStep, if_pos hf, dif_pos hrF]
        exact hrL
    · right
      rw [subRoundStep, if_pos hf, dif_neg hrL]
      exact ⟨rfl, rfl⟩
  · have hlF : ¬ inp.length < s.r + NReferenceBytes := by
      by_contra hc
      rw [subRoundStep, if_neg hf, if_pos hc] at herr
      simp at herr
    by_cases hlL : (inp.take K).length < s.r + NReferenceBytes
    · right
      rw [subRoundStep, if_neg hf, if_pos hlL]
      exact ⟨rfl, rfl⟩
    · left
      have hmin := List.length_take K inp
      have hrb : ((inp.take K).drop s.r).take NReferenceBytes =
          (inp.drop s.r).take NReferenceBytes := by
        rw [List.drop_take, List.take_take]
        congr 1
        omega
      constructor
      · rw [subRoundStep, if_neg hf, if_neg hlL, hrb, subRoundStep, if_neg hf, if_neg hlF]
      · have h2 := (subRoundStepR d inp flags i s).2
        omega

/-- The flag loop on the truncated input either behaves exactly as on the
full input, or stops with `io.ErrUnexpectedEOF` having produced a prefix of
the full loop's output. -/
theorem subRoundsTake (d : Decoder) (inp : List Nat) (K : Nat) (flags : Nat) :
    ∀ k s, (subRounds d inp flags k s).err = none → s.r ≤ (inp.take K).length →
      (subRounds d (inp.take K) flags k s = subRounds d inp flags k s ∧
        (subRounds d inp flags k s).r ≤ (inp.take K).length) ∨
      ((subRounds d (inp.take K) flags k s).err = some Err.unexpectedEOF ∧
        ∃ t, (subRounds d (inp.take K) flags k s).out ++ t =
          (subRounds d inp flags k s).out) := by
  intro k
  induction k with
  | zero =>
    intro s herr hr
    exact Or.inl ⟨rfl, hr⟩
  | succ k ih =>
    intro s herr hr
    cases hse : (subRoundStep d inp flags (NFlags - (k + 1)) s).err with
    | some e =>
      exfalso
      simp only [subRounds, hse] at herr
      exact Option.noConfusion herr
    | none =>
      have hfullEq : subRounds d inp flags (k + 1) s =
          subRounds d inp flags k (subRoundStep d inp flags (NFlags - (k + 1)) s) := by
        simp only [subRounds, hse]
      rw [hfullEq] at herr ⊢
      rcases subRoundStepTake d inp K flags (NFlags - (k + 1)) s hse with
        ⟨heq, hrb⟩ | ⟨herrT, houtT⟩
      · have htruncEq : subRounds d (inp.take K) flags (k + 1) s =
            subRounds d (inp.take K) flags k (subRoundStep d inp flags (NFlags - (k + 1)) s) := by
          simp only [subRounds, heq, hse]
        rw [htruncEq]
        exact ih _ herr hrb
      · right
        have htruncEq : subRounds d (inp.take K) flags (k + 1) s =
            subRoundStep d (inp.take K) flags (NFlags - (k + 1)) s := by
          simp only [subRounds, herrT]
        rw [htruncEq, houtT]
        refine ⟨herrT, ?_⟩
        obtain ⟨t1, ht1⟩ := subRoundStepOutMono d inp flags (NFlags - (k + 1)) s
        obtain ⟨t2, ht2⟩ := subRoundsOutMono d inp flags k
          (subRoundStep d inp flags (NFlags - (k + 1)) s)
        exact ⟨t1 ++ t2, by rw [← List.append_assoc, ht1, ht2]⟩

/-- Decoding a prefix `inp.take K` of an input on which `Decode` succeeds:
the loop either succeeds (truncation at a round boundary) or fails with
`io.ErrUnexpectedEOF`, and in both cases its output is a prefix of the full
run's output. -/
theorem decodeLoopTake (d : Decoder) (inp : List Nat) (K : Nat) :
    ∀ fuel r w out,
      (decodeLoop d inp fuel r w out).2 = none →
      r ≤ (inp.take K).length →
      ((decodeLoop d (inp.take K) fuel r w out).2 = none ∨
        (decodeLoop d (inp.take K) fuel r w out).2 = some Err.unexpectedEOF) ∧
      ∃ t, (decodeLoop d (inp.take K) fuel r w out).1 ++ t =
        (decodeLoop d inp fuel r w out).1 := by
  intro fuel
  induction fuel with
  | zero =>
    intro r w out _ _
    exact ⟨Or.inl rfl, [], by simp [decodeLoop]⟩
  | succ fuel ih =>
    intro r w out herr hrle
    by_cases hrL : r < (inp.take K).length
    case neg =>
      have htr : decodeLoop d (inp.take K) (fuel + 1) r w out = (out, none) := by
        simp only [decodeLoop]
        rw [dif_neg hrL]
      rw [htr]
      exact ⟨Or.inl rfl, decodeLoopOutMono d inp (fuel + 1) r w out⟩
    case pos =>
      have hmin := List.length_take K inp
      have hrF : r < inp.length := by omega
      have hget : (inp.take K)[r] = inp[r] := by
        simp [List.getElem_take]
      simp only [decodeLoop] at herr ⊢
      rw [dif_pos hrF] at herr
      rw [dif_pos hrL, dif_pos hrF, hget]
      by_cases hf : inp[r] = 0
      · rw [if_pos hf] at herr
        rw [if_pos hf, if_pos hf]
        by_cases hlenF : inp.length < r + 1 + NFlags
        · rw [if_pos hlenF] at herr
          simp at herr
        · rw [if_neg hlenF] at herr
          by_cases hlenL : (inp.take K).length < r + 1 + NFlags
          · rw [if_pos hlenL, if_neg hlenF]
            refine ⟨Or.inr rfl, ?_⟩
            have hdropEq : (inp.take K).drop (r + 1) =
                ((inp.drop (r + 1)).take NFlags).take (K - (r + 1)) := by
              rw [List.drop_take, List.take_take]
              congr 1
              omega
            obtain ⟨t2, ht2⟩ := decodeLoopOutMono d inp fuel (r + 1 + NFlags)
              (w + (NFlags : Int)) (out ++ (inp.drop (r + 1)).take NFlags)
            refine ⟨((inp.drop (r + 1)).take NFlags).drop (K - (r + 1)) ++ t2, ?_⟩
            rw [hdropEq, ← ht2]
            simp only [List.append_assoc]
            rw [← List.append_assoc (((inp.drop (r + 1)).take NFlags).take (K - (r + 1))) _ t2,
              List.take_append_drop]
          · rw [if_neg hlenL, if_neg hlenF]
            have htake : ((inp.take K).drop (r + 1)).take NFlags =
                (inp.drop (r + 1)).take NFlags := by
              rw [List.drop_take, List.take_take]
              congr 1
              omega
            rw [htake]
            exact ih _ _ _ herr (by omega)
      · rw [if_neg hf] at herr
        rw [if_neg hf, if_neg hf]
        split at herr
        next e heq => simp at herr
        next hse =>
          rcases subRoundsTake d inp K (inp[r]) NFlags ⟨out, r + 1, w, none⟩ hse hrL with
            ⟨heq, hrb⟩ | ⟨herrT, t1, ht1⟩
          · rw [heq, hse]
            exact ih _ _ _ herr hrb
          · constructor
            · right
              rw [herrT]
            · rw [herrT]
              obtain ⟨t2, ht2⟩ := decodeLoopOutMono d inp fuel
                (subRounds d inp (inp[r]) NFlags ⟨out, r + 1, w, none⟩).r
                (subRounds d inp (inp[r]) NFlags ⟨out, r + 1, w, none⟩).w
                (subRounds d inp (inp[r]) NFlags ⟨out, r + 1, w, none⟩).out
              refine ⟨t1 ++ t2, ?_⟩
              show (subRounds d (inp.take K) (inp[r]) NFlags
                  ⟨out, r + 1, w, none⟩).out ++ (t1 ++ t2) =
                (decodeLoop d inp fuel
                  (subRounds d inp (inp[r]) NFlags ⟨out, r + 1, w, none⟩).r
                  (subRounds d inp (inp[r]) NFlags ⟨out, r + 1, w, none⟩).w
                  (subRounds d inp (inp[r]) NFlags ⟨out, r + 1, w, none⟩).out).1
              rw [← List.append_assoc, ht1, ht2]

/-- C2 counterexample.  The 18-byte input below is valid (`Decode` accepts
it with no error), yet truncating it at byte boundary 9 — strictly before
the end, at a control-round boundary — makes `Decode` return the prefix
output with a `nil` error rather than the unexpected-end-of-input error the
claim requires. -/
theorem c2_counterexample :
    (Decoder.Decode defaultDecoderMSB
      [0, 1, 2, 3, 4, 5, 6, 7, 8, 0, 1, 2, 3, 4, 5, 6, 7, 8]).2 = none ∧
    (9 : Nat) < [0, 1, 2, 3, 4, 5, 6, 7, 8, 0, 1, 2, 3, 4, 5, 6, 7, 8].length ∧
    Decoder.Decode defaultDecoderMSB
      ([0, 1, 2, 3, 4, 5, 6, 7, 8, 0, 1, 2, 3, 4, 5, 6, 7, 8].take 9) =
      ([1, 2, 3, 4, 5, 6, 7, 8], none) ∧
    (none : Option Err) ≠ some Err.unexpectedEOF := by decide

/-- C2 amended: for every decoder and every input accepted by `Decode`
without error, decoding any truncation of it returns the output decoded
from the retained prefix — always a prefix of the full output, never wrong
output, and the model is a total function so there is no crash — together
with either the unexpected-end-of-input error (truncation inside a record)
or no error at all (truncation at a control-round boundary, which the
format cannot detect). -/
theorem c2_theorem (d : Decoder) (inp : List Nat) (K : Nat)
    (hvalid : (Decoder.Decode d inp).2 = none) :
    ((Decoder.Decode d (inp.take K)).2 = none ∨
      (Decoder.Decode d (inp.take K)).2 = some Err.unexpectedEOF) ∧
    ∃ t, (Decoder.Decode d (inp.take K)).1 ++ t = (Decoder.Decode d inp).1 := by
  have halign : decodeLoop d (inp.take K) (inp.take K).length 0 0 [] =
      decodeLoop d (inp.take K) inp.length 0 0 [] := by
    have hmin := List.length_take K inp
    exact decodeLoopFuelCongr d (inp.take K) _ _ 0 0 [] (by omega) (by omega)
  simp only [Decoder.Decode]
  rw [halign]
  exact decodeLoopTake d inp K inp.length 0 0 [] (by simpa [Decoder.Decode] using hvalid)
    (Nat.zero_le _)

/-- C2 witness: the amended statement at a concrete valid input truncated
mid-record. -/
theorem c2_witness :
    ((Decoder.Decode defaultDecoderMSB ([0, 1, 2, 3, 4, 5, 6, 7, 8].take 3)).2 = none ∨
      (Decoder.Decode defaultDecoderMSB ([0, 1, 2, 3, 4, 5, 6, 7, 8].take 3)).2 =
        some Err.unexpectedEOF) ∧
    ∃ t, (Decoder.Decode defaultDecoderMSB ([0, 1, 2, 3, 4, 5, 6, 7, 8].take 3)).1 ++ t =
      (Decoder.Decode defaultDecoderMSB [0, 1, 2, 3, 4, 5, 6, 7, 8]).1 :=
  c2_theorem defaultDecoderMSB [0, 1, 2, 3, 4, 5, 6, 7, 8] 3 (by decide)

/-! ## C10: Decode is total and panic-free for constructed decoders -/

/-- One sub-round of the panic-instrumented decoder agrees with the plain
model whenever the threshold is non-negative and `w` equals the output
length (both hold for decoders built by `NewCustomDecoder`), and the
sub-round preserves that agreement between `w` and the output length. -/
theorem subRoundStepCEq (d : Decoder) (inp : List Nat) (flags i : Nat)
    (s : SubState) (hth : 0 ≤ d.threshold) (hw : s.w = (s.out.length : Int)) :
    subRoundStepC d inp flags i s = some (subRoundStep d inp flags i s) ∧
    ((subRoundStep d inp flags i s).err = none →
      (subRoundStep d inp flags i s).w = ((subRoundStep d inp flags i s).out.length : Int)) := by
  simp only [subRoundStep, subRoundStepC]
  by_cases hf : d.flagFunc flags i = true
  · rw [if_pos hf, if_pos hf]
    by_cases hr : s.r < inp.length
    · rw [dif_pos hr, dif_pos hr]
      refine ⟨rfl, fun _ => ?_⟩
      simp [hw]
    · rw [dif_neg hr, dif_neg hr]
      exact ⟨rfl, fun h => absurd h (by simp)⟩
  · rw [if_neg hf, if_neg hf]
    by_cases hl : inp.length < s.r + NReferenceBytes
    · rw [if_pos hl, if_pos hl]
      exact ⟨rfl, fun h => absurd h (by simp)⟩
    · rw [if_neg hl, if_neg hl]
      by_cases h1 : (d.referenceFunc ((inp.drop s.r).take NReferenceBytes) d.order).1 < 0
      · rw [if_pos h1, if_pos h1]
        exact ⟨rfl, fun h => absurd h (by simp)⟩
      · rw [if_neg h1, if_neg h1]
        by_cases h2 : (d.referenceFunc ((inp.drop s.r).take NReferenceBytes) d.order).2 < 0 ∨
            s.w - 1 - (d.referenceFunc ((inp.drop s.r).take NReferenceBytes) d.order).2 < 0
        · rw [if_pos h2, if_pos h2]
          exact ⟨rfl, fun h => absurd h (by simp)⟩
        · rw [if_neg h2, if_neg h2]
          by_cases h3 : (s.out.length : Int) <
              s.w - 1 - (d.referenceFunc ((inp.drop s.r).take NReferenceBytes) d.order).2 +
              ((d.referenceFunc ((inp.drop s.r).take NReferenceBytes) d.order).1 + d.threshold)
          · rw [if_pos h3, if_pos h3]
            rw [if_pos (by omega :
              s.w - 1 - (d.referenceFunc ((inp.drop s.r).take NReferenceBytes) d.order).2 ≤
                (s.out.length : Int))]
            exact ⟨rfl, fun h => absurd h (by simp)⟩
          · rw [if_neg h3, if_neg h3]
            rw [if_pos (by omega : (0 : Int) ≤
              (d.referenceFunc ((inp.drop s.r).take NReferenceBytes) d.order).1 + d.threshold)]
            refine ⟨rfl, fun _ => ?_⟩
            simp only [List.length_append, List.length_take, List.length_drop]
            omega

/-- The panic-instrumented flag loop agrees with the plain model for
non-negative thresholds, and the loop preserves the `w`/output-length
agreement on error-free completion. -/
theorem subRoundsCEq (d : Decoder) (inp : List Nat) (flags : Nat)
    (hth : 0 ≤ d.threshold) :
    ∀ k s, s.w = (s.out.length : Int) →
      subRoundsC d inp flags k s = some (subRounds d inp flags k s) ∧
      ((subRounds d inp flags k s).err = none →
        (subRounds d inp flags k s).w = ((subRounds d inp flags k s).out.length : Int)) := by
  intro k
  induction k with
  | zero =>
    intro s hw
    exact ⟨rfl, fun _ => hw⟩
  | succ k ih =>
    intro s hw
    obtain ⟨hCeq, hinv⟩ := subRoundStepCEq d inp flags (NFlags - (k + 1)) s hth hw
    simp only [subRoundsC, subRounds, hCeq]
    cases hse : (subRoundStep d inp flags (NFlags - (k + 1)) s).err with
    | some e =>
      simp only [hse]
      refine ⟨trivial, fun h => ?_⟩
      exact Option.noConfusion h
    | none =>
      simp only [hse]
      exact ih _ (hinv hse)

/-- The panic-instrumented outer loop agrees with the plain model for
non-negative thresholds. -/
theorem decodeLoopCEq (d : Decoder) (inp : List Nat) (hth : 0 ≤ d.threshold) :
    ∀ fuel r w out, w = (out.length : Int) →
      decodeLoopC d inp fuel r w out = some (decodeLoop d inp fuel r w out) := by
  intro fuel
  induction fuel with
  | zero =>
    intro r w out _
    rfl
  | succ fuel ih =>
    intro r w out hw
    simp only [decodeLoopC, decodeLoop]
    by_cases hr : r < inp.length
    · rw [dif_pos hr, dif_pos hr]
      by_cases hf : inp[r] = 0
      · rw [if_pos hf, if_pos hf]
        by_cases hl : inp.length < r + 1 + NFlags
        · rw [if_pos hl, if_pos hl]
        · rw [if_neg hl, if_neg hl]
          refine ih _ _ _ ?_
          simp only [List.length_append, List.length_take, List.length_drop]
          omega
      · rw [if_neg hf, if_neg hf]
        obtain ⟨hCeq, hinv⟩ := subRoundsCEq d inp (inp[r]) hth NFlags
          ⟨out, r + 1, w, none⟩ hw
        rw [hCeq]
        cases hse : (subRounds d inp (inp[r]) NFlags ⟨out, r + 1, w, none⟩).err with
        | some e => simp only [hse]
        | none =>
          simp only [hse]
          exact ih _ _ _ (hinv hse)
    · rw [dif_neg hr, dif_neg hr]

/-- C10: for every decoder built by `NewCustomDecoder` (whose reference
function, as a Lean function, is total), `Decode` is a total function —
the fuel `inp.length` always suffices, see `decodeLoopFuelCongr` — and the
panic-instrumented run agrees with it: no slice access is out of bounds,
so `Decode` never panics, and its error component inhabits `Option Err`,
i.e. it is `nil` or one of the documented errors. -/
theorem c10_theorem (order : Order) (ff : FlagFuncType) (rf : ReferenceFuncType)
    (t : Int) (d : Decoder) (inp : List Nat)
    (hd : NewCustomDecoder order (some ff) (some rf) t = Except.ok d) :
    decodeChecked d inp = some (Decoder.Decode d inp) := by
  have hth : 0 ≤ d.threshold := by
    simp only [NewCustomDecoder] at hd
    split at hd
    · exact absurd hd (by simp)
    · split at hd
      · exact absurd hd (by simp)
      next ht =>
        injection hd with hd'
        rw [← hd']
        show (0 : Int) ≤ t
        have h3 : (ThresholdMin : Int) = 3 := rfl
        omega
  exact decodeLoopCEq d inp hth inp.length 0 0 [] rfl

/-- C10 witness: a constructed decoder on a malformed input (the
counterexample input of C1): the checked run returns `some`, matching the
plain run. -/
theorem c10_witness :
    decodeChecked defaultDecoderMSB [32, 65, 66, 0, 0] =
      some (Decoder.Decode defaultDecoderMSB [32, 65, 66, 0, 0]) :=
  c10_theorem MSB DefaultFlagFunc DefaultReferenceFunc 3 defaultDecoderMSB
    [32, 65, 66, 0, 0] rfl

/-! ## C8 and C9: the streaming decoder -/

/-- `ReadByte` on a source whose unread part starts with `b`. -/
theorem readByteOfDrop (s : Reader.State) (b : Nat) (l : List Nat)
    (h : s.src.drop s.ri = b :: l) :
    Reader.readByte s = some (b, { s with ri := s.ri + 1 }) ∧
    s.src.drop (s.ri + 1) = l := by
  have hlen : s.ri < s.src.length := by
    by_contra hc
    rw [List.drop_eq_nil_iff.mpr (by omega)] at h
    exact List.noConfusion h
  constructor
  · rw [Reader.readByte, dif_pos hlen]
    have hb : s.src[s.ri] = b := by
      have hlt0 : 0 < (s.src.drop s.ri).length := by rw [h]; simp
      have h0 : (s.src.drop s.ri)[0] = b := by
        simp [h]
      rw [List.getElem_drop] at h0
      simpa using h0
    rw [hb]
  · have hd : (s.src.drop s.ri).drop 1 = s.src.drop (s.ri + 1) := List.drop_drop 1 s.ri s.src
    rw [← hd, h]
    rfl

/-- C8: `flush` hands `output[0:writePos]` to the reader and resets
`writePos` to 0, and immediately after a flush (`o = 0`) *every*
back-reference — whatever its encoded offset, so in particular every
offset within the window — makes the next decode round fail with the
relative-offset error: the flushed history is not consulted at all.  This
contradicts the claim that the last `windowSize` bytes are always retained
and in-window references never trigger the offset error. -/
theorem c8_theorem :
    (∀ t : Reader.State, (Reader.flush t).o = 0 ∧
      (Reader.flush t).toRead = t.output.take t.o) ∧
    (∀ (s : Reader.State) (ctl b1 b2 : Nat) (rest : List Nat),
      s.err = none → s.o = 0 → ctl &&& 0x80 ≠ 0 →
      s.src.drop s.ri = ctl :: b1 :: b2 :: rest →
      (Reader.decodeStep s).err = some Reader.RErr.offsetOut) := by
  refine ⟨fun t => ⟨rfl, rfl⟩, ?_⟩
  intro s ctl b1 b2 rest herr ho hctl hsrc
  obtain ⟨hrb1, hd1⟩ := readByteOfDrop s ctl (b1 :: b2 :: rest) hsrc
  obtain ⟨hrb2, hd2⟩ := readByteOfDrop { s with ri := s.ri + 1 } b1 (b2 :: rest) hd1
  obtain ⟨hrb3, hd3⟩ := readByteOfDrop { s with ri := s.ri + 1 + 1 } b2 rest hd2
  have hctl0 : ¬ ctl = 0 := by
    intro h
    rw [h] at hctl
    exact hctl rfl
  have hW : Reader.ctlWidth = 7 + 1 := rfl
  have hloop : (Reader.ctlLoop Reader.ctlWidth ctl { s with ri := s.ri + 1 }).err =
      some Reader.RErr.offsetOut := by
    rw [hW]
    simp only [Reader.ctlLoop, if_neg hctl, hrb2, hrb3]
    rw [if_pos (by push_cast [ho]; omega)]
  simp only [Reader.decodeStep, Reader.decodeBody, hrb1, if_neg hctl0]
  simp only [Reader.deferBlock, Reader.flush]
  cases hres : (Reader.ctlLoop Reader.ctlWidth ctl { s with ri := s.ri + 1 }).err with
  | none =>
    rw [hres] at hloop
    exact Option.noConfusion hloop
  | some e =>
    rw [hres] at hloop
    injection hloop with he
    subst he
    simp [hres]

/-- C8 witness: the divergence theorem applied to a freshly flushed state
(a new reader has `o = 0`, the state `flush` always produces) whose source
continues with a back-reference of encoded offset 0, i.e. one byte back —
well within the window. -/
theorem c8_witness :
    (Reader.flush (Reader.NewReader [] MSB)).o = 0 ∧
    (Reader.decodeStep (Reader.NewReader [128, 0, 0] LSB)).err =
      some Reader.RErr.offsetOut :=
  ⟨(c8_theorem.1 (Reader.NewReader [] MSB)).1,
   c8_theorem.2 (Reader.NewReader [128, 0, 0] LSB) 128 0 0 [] rfl rfl (by decide) rfl⟩

/-- C9 counterexample.  Decode `demoSrc`, read the first 4 of the 8
buffered bytes, then `Close`: the next `Read` returns the remaining 4
buffered bytes with a `nil` error — not the closed error the claim
requires for every post-`Close` read. -/
theorem c9_counterexample :
    (c9Run.map fun x => (x.1, x.2.1)) = some ([1, 2, 3, 4], none) ∧
    (Reader.Close c9State).err = some Reader.RErr.closed ∧
    ((Reader.Read 1 (Reader.Close c9State) 4).map fun x => (x.1, x.2.1)) =
      some ([5, 6, 7, 8], none) := by decide

/-- C9 amended: `Close` marks the decoder state with the closed error and
is idempotent; after `Close`, a `Read` that finds no previously decoded
buffered bytes returns the closed error immediately (one loop iteration, no
blocking) and performs no source I/O; a `Read` that still finds buffered
bytes first returns those bytes with a `nil` error (still without touching
the source), contrary to the claim that every post-`Close` read returns the
closed error. -/
theorem c9_theorem (s : Reader.State) (k fuel : Nat) :
    (Reader.Close s).err = some Reader.RErr.closed ∧
    Reader.Close (Reader.Close s) = Reader.Close s ∧
    (s.err = some Reader.RErr.closed → s.toRead = [] →
      Reader.Read (fuel + 1) s k = some ([], some Reader.RErr.closed, s)) ∧
    (s.err = some Reader.RErr.closed →
      ∃ outb e s2, Reader.Read (fuel + 1) s k = some (outb, e, s2) ∧
        s2.ri = s.ri ∧ s2.src = s.src) := by
  refine ⟨rfl, rfl, ?_, ?_⟩
  · intro h1 h2
    simp [Reader.Read, h1, h2]
  · intro h1
    by_cases h2 : s.toRead = []
    · refine ⟨[], some Reader.RErr.closed, s, ?_, rfl, rfl⟩
      simp [Reader.Read, h1, h2]
    · refine ⟨s.toRead.take k, none, { s with toRead := s.toRead.drop k }, ?_, rfl, rfl⟩
      have hpos : s.toRead.length > 0 := by
        cases ht : s.toRead with
        | nil => exact absurd ht h2
        | cons a l => simp [ht]
      simp [Reader.Read, hpos]

/-- C9 witness: a freshly closed reader returns the closed error from
`Read` in one iteration. -/
theorem c9_witness :
    Reader.Read 1 (Reader.Close (Reader.NewReader [] MSB)) 4 =
      some ([], some Reader.RErr.closed, Reader.Close (Reader.NewReader [] MSB)) :=
  (c9_theorem (Reader.Close (Reader.NewReader [] MSB)) 4 0).2.2.1 rfl rfl
